import Mathlib

/-
Verification of the quote-management widget (src/dom-manipulation/script.js).

The JavaScript store is a mutable array of `{text, category}` records; we embed
it as a `List Quote` and every store-mutating function as a pure function from
the old store (plus its other inputs) to the new store and its outputs.
JavaScript's string-falsy defaulting `x || d` is embedded as `jsOr` (for
possibly-absent fields) and `strOr` (for plain strings).  Object references
held by the conflict queue are embedded as positions (indices) into the store,
which is faithful because the merge never removes or reorders entries (proved
below as claim C10).
-/

/-- A quote record as stored in the in-memory `quotes` array: both fields are
strings (`category` may be the empty string only if put there by code that
bypasses the `|| 'uncategorized'` defaults). -/
structure Quote where
  text : String
  category : String
deriving DecidableEq

/-- An incoming candidate record (server item or import entry): `text` is a
string (non-string entries are filtered out before the merge loops run), while
`category` may be absent (`none`), modelling a missing / undefined field. -/
structure Candidate where
  text : String
  category : Option String
deriving DecidableEq

/-- JavaScript `c || d` for a possibly-absent string field: absent (`none`) and
the empty string are falsy and give the default `d`. -/
def jsOr (c : Option String) (d : String) : String :=
  match c with
  | none => d
  | some s => if s = "" then d else s

/-- JavaScript `s || d` for a plain string: the empty string gives `d`. -/
def strOr (s d : String) : String :=
  if s = "" then d else s

/-- JavaScript `s.trim()`: strips leading and trailing whitespace.  Embedded
directly on the character list (space, tab, carriage return, line feed) so
that it evaluates by kernel reduction on concrete inputs. -/
def jsTrim (s : String) : String :=
  ⟨((s.data.dropWhile Char.isWhitespace).reverse.dropWhile
      Char.isWhitespace).reverse⟩

/-- A conflict record pushed by `mergeServerQuotes`
(`{text: sq.text, local: existing, server: sq}`): the `local` field of the
JavaScript object is a live reference into the store, embedded here as the
index `localIdx` of the referenced entry; `server` is the candidate snapshot. -/
structure Conflict where
  text : String
  localIdx : Nat
  server : Candidate
deriving DecidableEq

/-- Dereference a conflict's `local` field against a store state: reading
`conflict.local.category` in JavaScript reads the current category of the
store entry the reference points at. -/
def conflictLocalCat (store : List Quote) (c : Conflict) : String :=
  (store.getD c.localIdx ⟨"", ""⟩).category

/-- The index `new Map(quotes.map((q) => [q.text, q]))` built by
`mergeServerQuotes`: maps a text to the position of the store entry the map
holds for it.  A `Map` keeps the value of the last inserted pair per key, so a
later entry with a duplicate text shadows an earlier one. -/
def lastIdx (l : List Quote) (t : String) : Option Nat :=
  match l with
  | [] => none
  | q :: rest =>
    match lastIdx rest t with
    | some i => some (i + 1)
    | none => if q.text = t then some 0 else none

/-- In-place mutation `existing.category = c` of the store entry at index `i`:
only that entry's category changes, its text and every other entry stay put. -/
def setCat (l : List Quote) (i : Nat) (c : String) : List Quote :=
  match l, i with
  | [], _ => []
  | q :: rest, 0 => ⟨q.text, c⟩ :: rest
  | q :: rest, n + 1 => q :: setCat rest n c

/-- One iteration of the `serverQuotes.forEach((sq) => ...)` body of
`mergeServerQuotes` (script.js lines 671-694): look the candidate's text up in
the index built over the original store; on a category mismatch push a
conflict and apply the server category in place; on a miss append a new
record.  The source tests `(existing.category || '') !== (sq.category || '')`;
the branches are written here with the equality test first (identical — no
action), which is the same function. -/
def mergeStep (orig : List Quote) (acc : List Quote × List Conflict)
    (sq : Candidate) : List Quote × List Conflict :=
  match lastIdx orig sq.text with
  | some i =>
    if (acc.1.getD i ⟨"", ""⟩).category = jsOr sq.category "" then acc
    else
      (setCat acc.1 i (jsOr sq.category "uncategorized"),
       acc.2 ++ [⟨sq.text, i, sq⟩])
  | none => (acc.1 ++ [⟨sq.text, jsOr sq.category "uncategorized"⟩], acc.2)

/-- The full candidate loop of `mergeServerQuotes`, folding `mergeStep` over
the candidate list.  `orig` is the store the index was built from; the
accumulator carries the evolving store and the conflicts pushed so far. -/
def mergeGo (orig : List Quote) (sqs : List Candidate)
    (acc : List Quote × List Conflict) : List Quote × List Conflict :=
  sqs.foldl (mergeStep orig) acc

/-- Result of `mergeServerQuotes`: the new store, the returned conflict list,
and whether the two trailing side effects ran — `saved` records
`if (serverQuotes.length > 0) saveQuotesToLocalStorage()` and `repopulated`
records `if (conflicts.length) populateCategories()`. -/
structure MergeResult where
  store : List Quote
  conflicts : List Conflict
  saved : Bool
  repopulated : Bool
deriving DecidableEq

/-- `mergeServerQuotes(serverQuotes)` (script.js lines 671-694). -/
def mergeServerQuotes (serverQuotes : List Candidate) (store : List Quote) :
    MergeResult :=
  let r := mergeGo store serverQuotes (store, [])
  { store := r.1
    conflicts := r.2
    saved := !serverQuotes.isEmpty
    repopulated := !r.2.isEmpty }

/-- The `Keep Local` button handler of `showConflictPanel` (script.js lines
730-736): its body only dims the row and shows a notification — it performs no
mutation of the quotes store, so as a store transformer it is the identity. -/
def keepLocalResolve (store : List Quote) : List Quote :=
  store

/-- `closeConflictPanel` (script.js lines 748-753): hides the panel and clears
the whole pending-conflict queue (`pendingConflicts = []`). -/
def closeConflictPanel (_pending : List Conflict) : List Conflict :=
  []

/-- The deduplication key `q.text + '||' + (q.category || '')` computed for
existing store entries by the import merge; for a store entry the category is
a plain string, and `s || ''` is `s` itself (both sides are `""` when `s` is
empty). -/
def storeKey (q : Quote) : String :=
  q.text ++ "||" ++ q.category

/-- The deduplication key `q.text + '||' + (q.category || '')` computed for an
incoming import candidate. -/
def candKey (sq : Candidate) : String :=
  sq.text ++ "||" ++ jsOr sq.category ""

/-- Accumulator of the import merge loop: the evolving store, the `seen` key
set (embedded as a list, membership is what matters), and the `added`
counter. -/
structure ImportState where
  store : List Quote
  seen : List String
  added : Nat
deriving DecidableEq

/-- One iteration of the `valid.forEach((q) => ...)` body of
`importFromJsonText` (script.js lines 464-484): skip when the candidate's key
is already seen, otherwise append `{text: q.text, category: q.category ||
'uncategorized'}`, record the key, and bump the counter. -/
def impStep (acc : ImportState) (sq : Candidate) : ImportState :=
  if candKey sq ∈ acc.seen then acc
  else
    { store := acc.store ++ [⟨sq.text, jsOr sq.category "uncategorized"⟩]
      seen := acc.seen ++ [candKey sq]
      added := acc.added + 1 }

/-- The merge loop of `importFromJsonText` / `importFromJsonFile`: seeds
`seen` with the keys of the existing store and folds `impStep` over the valid
candidates; returns the new store and the number of entries added. -/
def mergeImport (cands : List Candidate) (store : List Quote) :
    List Quote × Nat :=
  let fin := cands.foldl impStep ⟨store, store.map storeKey, 0⟩
  (fin.store, fin.added)

/-- A record as it sits in durable storage after JSON parsing: either field
may be absent or non-string (`none`). -/
structure RawQuote where
  text : Option String
  category : Option String
deriving DecidableEq

/-- `saveQuotesToLocalStorage` (script.js lines 37-43): serializes the store;
every entry's fields are present strings, so the raw image carries them as
`some`. -/
def saveQuotesToLocalStorage (store : List Quote) : List RawQuote :=
  store.map (fun q => ⟨some q.text, some q.category⟩)

/-- `loadQuotesFromLocalStorage` (script.js lines 17-32): when the stored
value is absent, unparseable or not an array (`none` here) the current
contents are left untouched; otherwise the contents are replaced by the
entries that have a string `text`, with `category` defaulted by
`q.category || 'uncategorized'`. -/
def loadQuotesFromLocalStorage (raw : Option (List RawQuote))
    (current : List Quote) : List Quote :=
  match raw with
  | none => current
  | some parsed =>
    parsed.filterMap (fun r =>
      match r.text with
      | some t => some ⟨t, jsOr r.category "uncategorized"⟩
      | none => none)

/-- `showRandomQuoteByCategory(category)` (script.js lines 101-111): builds
the pool (whole store for `"all"`, else the entries whose
`q.category || 'uncategorized'` equals the filter), returns `null` (`none`)
on an empty pool, and otherwise the pool entry at
`Math.floor(Math.random() * pool.length)`; the random draw is embedded as an
arbitrary natural `r` reduced modulo the pool length. -/
def showRandomQuoteByCategory (category : String) (r : Nat)
    (store : List Quote) : Option Quote :=
  let pool :=
    if category = "all" then store
    else store.filter (fun q => strOr q.category "uncategorized" == category)
  match pool with
  | [] => none
  | x :: xs =>
    some ((x :: xs).get ⟨r % (xs.length + 1), Nat.mod_lt _ (Nat.succ_pos _)⟩)

/-- `addQuoteDirect(text, category)` (script.js lines 450-458): throws
`'text required'` when `text` is falsy (the empty string) — note the check
runs on the untrimmed argument — and otherwise appends
`{text: text.trim(), category: category || 'uncategorized'}` to the store. -/
def addQuoteDirect (text : String) (category : Option String)
    (store : List Quote) : Except String (List Quote) :=
  if text = "" then Except.error "text required"
  else Except.ok (store ++ [⟨jsTrim text, jsOr category "uncategorized"⟩])

/-- `addQuote` (script.js lines 341-371) and the add-quote form handler: trim
both inputs first, reject (returning `null` and leaving the store unchanged)
when the trimmed text is empty, otherwise append the new record. -/
def addQuote (textInput catInput : String) (store : List Quote) :
    Option Quote × List Quote :=
  let text := jsTrim textInput
  let category := strOr (jsTrim catInput) "uncategorized"
  if text = "" then (none, store)
  else (some ⟨text, category⟩, store ++ [⟨text, category⟩])

/-- A JSONPlaceholder post as returned by the mock endpoint. -/
structure Post where
  title : String
  body : String
deriving DecidableEq

/-- The HTTP outcome seen by `fetchServerQuotes`: `ok` is the success flag of
the response, `posts` its decoded body.  A network error is the `Except.error`
case of the argument below. -/
structure Response where
  ok : Bool
  posts : List Post
deriving DecidableEq

/-- `fetchServerQuotes` (script.js lines 658-665): propagates a network error,
throws `'failed to fetch server data'` on a non-success status, and otherwise
maps each post to `{text: p.title, category: (p.body || '').split(' ')[0] ||
'server'}`. -/
def fetchServerQuotes (resp : Except String Response) :
    Except String (List Candidate) :=
  match resp with
  | Except.error e => Except.error e
  | Except.ok r =>
    if r.ok then
      Except.ok (r.posts.map (fun p =>
        ⟨p.title, some (strOr ((p.body.splitOn " ").headD "") "server")⟩))
    else Except.error "failed to fetch server data"

/-- Outcome of one `performSync` run: the store, the pending-conflict queue,
and the message passed to `showSyncNotification`. -/
structure SyncResult where
  store : List Quote
  pending : List Conflict
  message : String
deriving DecidableEq

/-- `performSync` (script.js lines 634-652): fetch, merge, extend the pending
queue with the new conflicts; any thrown error is caught and surfaced as a
`'Sync failed: ...'` notification, leaving store and queue as they were. -/
def performSync (resp : Except String Response) (store : List Quote)
    (pending : List Conflict) : SyncResult :=
  match fetchServerQuotes resp with
  | Except.error e => ⟨store, pending, "Sync failed: " ++ e⟩
  | Except.ok serverQuotes =>
    let r := mergeServerQuotes serverQuotes store
    if r.conflicts.isEmpty then
      ⟨r.store, pending,
        "Server sync complete — " ++ toString serverQuotes.length ++
          " items processed"⟩
    else
      ⟨r.store, pending ++ r.conflicts,
        "Server provided " ++ toString serverQuotes.length ++ " items; " ++
          toString r.conflicts.length ++ " conflicts detected"⟩

/-! ### Basic lemmas about the embedding primitives -/

/-- A successful index lookup yields a member of the list. -/
theorem mem_of_lookup {α : Type} {l : List α} {n : Nat} {a : α}
    (h : l[n]? = some a) : a ∈ l := by
  obtain ⟨hn, rfl⟩ := List.getElem?_eq_some.mp h
  exact l.getElem_mem hn

/-- `setCat` keeps the length of the store. -/
theorem setCat_length (l : List Quote) (i : Nat) (c : String) :
    (setCat l i c).length = l.length := by
  induction l generalizing i with
  | nil => rfl
  | cons q rest ih =>
    cases i with
    | zero => rfl
    | succ n => simp [setCat, ih]

/-- `setCat` leaves every other position untouched. -/
theorem setCat_lookup_ne (l : List Quote) (i j : Nat) (c : String) (h : i ≠ j) :
    (setCat l i c)[j]? = l[j]? := by
  induction l generalizing i j with
  | nil => rfl
  | cons q rest ih =>
    cases i with
    | zero =>
      cases j with
      | zero => exact absurd rfl h
      | succ m => simp [setCat]
    | succ n =>
      cases j with
      | zero => simp [setCat]
      | succ m =>
        simp only [setCat, List.getElem?_cons_succ]
        exact ih n m (fun hc => h (by rw [hc]))

/-- At the mutated position, `setCat` keeps the text and installs the new
category. -/
theorem setCat_lookup_self (l : List Quote) (i : Nat) (c : String) :
    (setCat l i c)[i]? = l[i]?.map (fun q => Quote.mk q.text c) := by
  induction l generalizing i with
  | nil => rfl
  | cons q rest ih =>
    cases i with
    | zero => simp [setCat]
    | succ n => simpa [setCat] using ih n

/-- `setCat` never changes the sequence of texts. -/
theorem setCat_map_text (l : List Quote) (i : Nat) (c : String) :
    (setCat l i c).map Quote.text = l.map Quote.text := by
  induction l generalizing i with
  | nil => rfl
  | cons q rest ih =>
    cases i with
    | zero => rfl
    | succ n => simp [setCat, ih]

/-- Dropping past the mutated position erases any trace of `setCat`. -/
theorem setCat_drop (l : List Quote) (i n : Nat) (c : String) (h : i < n) :
    (setCat l i c).drop n = l.drop n := by
  induction l generalizing i n with
  | nil => rfl
  | cons q rest ih =>
    cases i with
    | zero =>
      cases n with
      | zero => omega
      | succ m => simp [setCat]
    | succ k =>
      cases n with
      | zero => omega
      | succ m =>
        simp only [setCat, List.drop_succ_cons]
        exact ih k m (by omega)

/-- The index value returned by `lastIdx` is a valid position. -/
theorem lastIdx_lt_length : ∀ (l : List Quote) (t : String) (i : Nat),
    lastIdx l t = some i → i < l.length
  | [], _, _, h => by simp [lastIdx] at h
  | q :: rest, t, i, h => by
    cases hr : lastIdx rest t with
    | some j =>
      have hj := lastIdx_lt_length rest t j hr
      simp only [lastIdx, hr, Option.some.injEq] at h
      simp only [List.length_cons]
      omega
    | none =>
      simp only [lastIdx, hr] at h
      by_cases ht : q.text = t
      · rw [if_pos ht] at h
        cases h
        simp
      · simp [ht] at h

/-- If a text occurs nowhere in the store, the index has no entry for it. -/
theorem lastIdx_eq_none (l : List Quote) (t : String)
    (h : ∀ q ∈ l, q.text ≠ t) : lastIdx l t = none := by
  induction l with
  | nil => rfl
  | cons q rest ih =>
    unfold lastIdx
    rw [ih (fun x hx => h x (List.mem_cons_of_mem q hx))]
    simp [h q (List.mem_cons_self q rest)]

/-! ### Structural lemmas about the remote-merge loop -/

/-- Folding one more candidate first processes it with `mergeStep`. -/
theorem mergeGo_cons (orig : List Quote) (sq : Candidate) (sqs : List Candidate)
    (acc : List Quote × List Conflict) :
    mergeGo orig (sq :: sqs) acc = mergeGo orig sqs (mergeStep orig acc sq) := rfl

/-- The empty candidate list leaves the accumulator unchanged. -/
theorem mergeGo_nil (orig : List Quote) (acc : List Quote × List Conflict) :
    mergeGo orig [] acc = acc := rfl

/-- A single merge step never shrinks the store. -/
theorem mergeStep_length (orig : List Quote) (acc : List Quote × List Conflict)
    (sq : Candidate) : acc.1.length ≤ (mergeStep orig acc sq).1.length := by
  cases hidx : lastIdx orig sq.text with
  | none => simp [mergeStep, hidx]
  | some i =>
    simp only [mergeStep, hidx]
    by_cases hc : (acc.1.getD i ⟨"", ""⟩).category = jsOr sq.category ""
    · rw [if_pos hc]
    · rw [if_neg hc]
      dsimp only
      rw [setCat_length]

/-- A single merge step leaves any position at or past the end of the original
store untouched: category updates only ever target index-map positions, which
all lie inside the original store. -/
theorem mergeStep_lookup_high (orig : List Quote) (acc : List Quote × List Conflict)
    (sq : Candidate) (p : Nat) (v : Quote) (hp : orig.length ≤ p)
    (hv : acc.1[p]? = some v) : (mergeStep orig acc sq).1[p]? = some v := by
  cases hidx : lastIdx orig sq.text with
  | none =>
    simp only [mergeStep, hidx]
    have hlt : p < acc.1.length := by
      obtain ⟨h1, -⟩ := List.getElem?_eq_some.mp hv
      exact h1
    rw [List.getElem?_append_left hlt]
    exact hv
  | some i =>
    simp only [mergeStep, hidx]
    by_cases hc : (acc.1.getD i ⟨"", ""⟩).category = jsOr sq.category ""
    · rw [if_pos hc]
      exact hv
    · rw [if_neg hc]
      dsimp only
      have hi : i < orig.length := lastIdx_lt_length orig sq.text i hidx
      rw [setCat_lookup_ne acc.1 i p _ (by omega)]
      exact hv

/-- A single merge step only ever extends the sequence of texts. -/
theorem mergeStep_text (orig : List Quote) (acc : List Quote × List Conflict)
    (sq : Candidate) :
    ∃ r, (mergeStep orig acc sq).1.map Quote.text = acc.1.map Quote.text ++ r := by
  cases hidx : lastIdx orig sq.text with
  | none => exact ⟨[sq.text], by simp [mergeStep, hidx]⟩
  | some i =>
    refine ⟨[], ?_⟩
    simp only [mergeStep, hidx]
    by_cases hc : (acc.1.getD i ⟨"", ""⟩).category = jsOr sq.category ""
    · rw [if_pos hc, List.append_nil]
    · rw [if_neg hc]
      dsimp only
      rw [setCat_map_text, List.append_nil]

/-- Any conflict present after a merge step was already present, or was pushed
by this step for a candidate whose text has an index-map entry. -/
theorem mergeStep_conflicts (orig : List Quote) (acc : List Quote × List Conflict)
    (sq : Candidate) (conf : Conflict) (h : conf ∈ (mergeStep orig acc sq).2) :
    conf ∈ acc.2 ∨ (conf.text = sq.text ∧ (lastIdx orig sq.text).isSome = true) := by
  cases hidx : lastIdx orig sq.text with
  | none =>
    simp only [mergeStep, hidx] at h
    exact Or.inl h
  | some i =>
    simp only [mergeStep, hidx] at h
    by_cases hc : (acc.1.getD i ⟨"", ""⟩).category = jsOr sq.category ""
    · rw [if_pos hc] at h
      exact Or.inl h
    · rw [if_neg hc] at h
      rcases List.mem_append.mp h with h1 | h1
      · exact Or.inl h1
      · rw [List.mem_singleton.mp h1]
        exact Or.inr ⟨rfl, rfl⟩

/-- Past the end of the original store, a merge step can only contribute the
freshly appended candidate record. -/
theorem mergeStep_drop (orig : List Quote) (acc : List Quote × List Conflict)
    (sq : Candidate) (hlen : orig.length ≤ acc.1.length) (q : Quote)
    (h : q ∈ (mergeStep orig acc sq).1.drop orig.length) :
    q ∈ acc.1.drop orig.length ∨
      q = ⟨sq.text, jsOr sq.category "uncategorized"⟩ := by
  cases hidx : lastIdx orig sq.text with
  | none =>
    simp only [mergeStep, hidx] at h
    rw [List.drop_append_eq_append_drop, Nat.sub_eq_zero_of_le hlen,
      List.drop_zero] at h
    rcases List.mem_append.mp h with h1 | h1
    · exact Or.inl h1
    · exact Or.inr (List.mem_singleton.mp h1)
  | some i =>
    simp only [mergeStep, hidx] at h
    by_cases hc : (acc.1.getD i ⟨"", ""⟩).category = jsOr sq.category ""
    · rw [if_pos hc] at h
      exact Or.inl h
    · rw [if_neg hc] at h
      dsimp only at h
      rw [setCat_drop acc.1 i orig.length _
        (lastIdx_lt_length orig sq.text i hidx)] at h
      exact Or.inl h

/-- The merge loop never shrinks the store. -/
theorem mergeGo_length (orig : List Quote) : ∀ (sqs : List Candidate)
    (acc : List Quote × List Conflict),
    acc.1.length ≤ (mergeGo orig sqs acc).1.length := by
  intro sqs
  induction sqs with
  | nil => intro acc; exact Nat.le_refl _
  | cons sq rest ih =>
    intro acc
    rw [mergeGo_cons]
    exact Nat.le_trans (mergeStep_length orig acc sq) (ih (mergeStep orig acc sq))

/-- The merge loop leaves positions at or past the end of the original store
untouched once they hold a value. -/
theorem mergeGo_lookup_high (orig : List Quote) : ∀ (sqs : List Candidate)
    (acc : List Quote × List Conflict) (p : Nat) (v : Quote),
    orig.length ≤ p → acc.1[p]? = some v →
    (mergeGo orig sqs acc).1[p]? = some v := by
  intro sqs
  induction sqs with
  | nil => intro acc p v _ hv; exact hv
  | cons sq rest ih =>
    intro acc p v hp hv
    rw [mergeGo_cons]
    exact ih _ p v hp (mergeStep_lookup_high orig acc sq p v hp hv)

/-- The merge loop only ever extends the sequence of texts. -/
theorem mergeGo_text (orig : List Quote) : ∀ (sqs : List Candidate)
    (acc : List Quote × List Conflict),
    ∃ r, (mergeGo orig sqs acc).1.map Quote.text = acc.1.map Quote.text ++ r := by
  intro sqs
  induction sqs with
  | nil => intro acc; exact ⟨[], by rw [mergeGo_nil, List.append_nil]⟩
  | cons sq rest ih =>
    intro acc
    rw [mergeGo_cons]
    obtain ⟨r1, h1⟩ := mergeStep_text orig acc sq
    obtain ⟨r2, h2⟩ := ih (mergeStep orig acc sq)
    exact ⟨r1 ++ r2, by rw [h2, h1, List.append_assoc]⟩

/-- Any conflict returned by the merge loop was in the accumulator already or
comes from a candidate whose text has an index-map entry. -/
theorem mergeGo_conflicts (orig : List Quote) : ∀ (sqs : List Candidate)
    (acc : List Quote × List Conflict) (conf : Conflict),
    conf ∈ (mergeGo orig sqs acc).2 →
    conf ∈ acc.2 ∨ ∃ sq ∈ sqs, conf.text = sq.text ∧
      (lastIdx orig sq.text).isSome = true := by
  intro sqs
  induction sqs with
  | nil => intro acc conf h; exact Or.inl h
  | cons sq rest ih =>
    intro acc conf h
    rw [mergeGo_cons] at h
    rcases ih _ conf h with h1 | ⟨sq2, hsq2, hh⟩
    · rcases mergeStep_conflicts orig acc sq conf h1 with h2 | h2
      · exact Or.inl h2
      · exact Or.inr ⟨sq, List.mem_cons_self sq rest, h2⟩
    · exact Or.inr ⟨sq2, List.mem_cons_of_mem sq hsq2, hh⟩

/-- Past the end of the original store, everything the merge loop leaves
behind is an appended candidate record. -/
theorem mergeGo_drop (orig : List Quote) : ∀ (sqs : List Candidate)
    (acc : List Quote × List Conflict) (q : Quote),
    orig.length ≤ acc.1.length →
    q ∈ (mergeGo orig sqs acc).1.drop orig.length →
    q ∈ acc.1.drop orig.length ∨
      ∃ sq ∈ sqs, q = ⟨sq.text, jsOr sq.category "uncategorized"⟩ := by
  intro sqs
  induction sqs with
  | nil => intro acc q _ h; exact Or.inl h
  | cons sq rest ih =>
    intro acc q hlen h
    rw [mergeGo_cons] at h
    rcases ih _ q (Nat.le_trans hlen (mergeStep_length orig acc sq)) h with
      h1 | ⟨sq2, hsq2, hh⟩
    · rcases mergeStep_drop orig acc sq hlen q h1 with h2 | h2
      · exact Or.inl h2
      · exact Or.inr ⟨sq, List.mem_cons_self sq rest, h2⟩
    · exact Or.inr ⟨sq2, List.mem_cons_of_mem sq hsq2, hh⟩

/-- A candidate whose text has no index-map entry is appended by the merge
loop (the index is never refreshed, so this holds wherever the candidate sits
in the list). -/
theorem mergeGo_appends (orig : List Quote) (y : String)
    (hy : lastIdx orig y = none) (cand : Candidate) (ht : cand.text = y) :
    ∀ (sqs : List Candidate) (acc : List Quote × List Conflict),
    orig.length ≤ acc.1.length → cand ∈ sqs →
    (⟨y, jsOr cand.category "uncategorized"⟩ : Quote) ∈
      (mergeGo orig sqs acc).1 := by
  intro sqs
  induction sqs with
  | nil => intro acc _ hc; cases hc
  | cons sq rest ih =>
    intro acc hlen hc
    rw [mergeGo_cons]
    rcases List.mem_cons.mp hc with rfl | hmem
    · have hstep : mergeStep orig acc cand =
          (acc.1 ++ [⟨cand.text, jsOr cand.category "uncategorized"⟩], acc.2) := by
        simp only [mergeStep, ht, hy]
      have hpos : (mergeStep orig acc cand).1[acc.1.length]? =
          some ⟨y, jsOr cand.category "uncategorized"⟩ := by
        rw [hstep]
        dsimp only
        rw [ht]
        exact List.getElem?_concat_length acc.1 _
      exact mem_of_lookup
        (mergeGo_lookup_high orig rest (mergeStep orig acc cand) acc.1.length
          ⟨y, jsOr cand.category "uncategorized"⟩ hlen hpos)
    · exact ih (mergeStep orig acc sq)
        (Nat.le_trans hlen (mergeStep_length orig acc sq)) hmem

/-! ### Lemmas about the import-merge loop -/

/-- When a candidate's skip key is non-empty, the falsy default does not fire,
so the key of the record it appends agrees with its skip key. -/
theorem jsOr_of_key_ne (c : Option String) (d : String) (h : jsOr c "" ≠ "") :
    jsOr c d = jsOr c "" := by
  cases c with
  | none => simp [jsOr] at h
  | some s =>
    by_cases hs : s = ""
    · simp [jsOr, hs] at h
    · simp [jsOr, hs]

/-- One import step keeps `seen` equal to the store's key image, provided the
processed candidate has a non-empty skip key. -/
theorem impStep_seen_tracks (acc : ImportState) (sq : Candidate)
    (hkey : jsOr sq.category "" ≠ "")
    (h : acc.seen = acc.store.map storeKey) :
    (impStep acc sq).seen = (impStep acc sq).store.map storeKey := by
  unfold impStep
  by_cases hmem : candKey sq ∈ acc.seen
  · rw [if_pos hmem]
    exact h
  · rw [if_neg hmem]
    dsimp only
    rw [List.map_append, ← h]
    congr 1
    simp only [List.map_cons, List.map_nil, storeKey, candKey,
      jsOr_of_key_ne sq.category "uncategorized" hkey]

/-- The import fold keeps `seen` equal to the store's key image when all
candidates have non-empty skip keys. -/
theorem impFold_seen_tracks : ∀ (cands : List Candidate),
    (∀ sq ∈ cands, jsOr sq.category "" ≠ "") →
    ∀ acc : ImportState, acc.seen = acc.store.map storeKey →
    (cands.foldl impStep acc).seen =
      (cands.foldl impStep acc).store.map storeKey := by
  intro cands
  induction cands with
  | nil => intro _ acc h; exact h
  | cons sq rest ih =>
    intro hall acc h
    rw [List.foldl_cons]
    exact ih (fun x hx => hall x (List.mem_cons_of_mem sq hx)) _
      (impStep_seen_tracks acc sq (hall sq (List.mem_cons_self sq rest)) h)

/-- An import step never forgets a seen key. -/
theorem impStep_seen_mono (acc : ImportState) (sq : Candidate) (k : String)
    (h : k ∈ acc.seen) : k ∈ (impStep acc sq).seen := by
  by_cases hmem : candKey sq ∈ acc.seen
  · simpa [impStep, hmem] using h
  · simp only [impStep, if_neg hmem]
    exact List.mem_append_left _ h

/-- The import fold never forgets a seen key. -/
theorem impFold_seen_mono : ∀ (cands : List Candidate) (acc : ImportState)
    (k : String), k ∈ acc.seen → k ∈ (cands.foldl impStep acc).seen := by
  intro cands
  induction cands with
  | nil => intro acc k h; exact h
  | cons sq rest ih =>
    intro acc k h
    rw [List.foldl_cons]
    exact ih _ k (impStep_seen_mono acc sq k h)

/-- After an import step, the processed candidate's key is seen. -/
theorem impStep_seen_self (acc : ImportState) (sq : Candidate) :
    candKey sq ∈ (impStep acc sq).seen := by
  by_cases hmem : candKey sq ∈ acc.seen
  · simp [impStep, hmem]
  · simp [impStep, hmem]

/-- After the import fold, every processed candidate's key is seen. -/
theorem impFold_processed : ∀ (cands : List Candidate) (acc : ImportState)
    (sq : Candidate), sq ∈ cands →
    candKey sq ∈ (cands.foldl impStep acc).seen := by
  intro cands
  induction cands with
  | nil => intro acc sq h; cases h
  | cons c rest ih =>
    intro acc sq h
    rw [List.foldl_cons]
    rcases List.mem_cons.mp h with rfl | hmem
    · exact impFold_seen_mono rest _ _ (impStep_seen_self acc sq)
    · exact ih _ sq hmem

/-- If every candidate's key is already seen, the import fold is a no-op. -/
theorem impFold_all_seen : ∀ (cands : List Candidate) (acc : ImportState),
    (∀ sq ∈ cands, candKey sq ∈ acc.seen) → cands.foldl impStep acc = acc := by
  intro cands
  induction cands with
  | nil => intro acc _; rfl
  | cons c rest ih =>
    intro acc hall
    rw [List.foldl_cons]
    have hstep : impStep acc c = acc := by
      unfold impStep
      rw [if_pos (hall c (List.mem_cons_self c rest))]
    rw [hstep]
    exact ih acc (fun sq hsq => hall sq (List.mem_cons_of_mem c hsq))

/-! ### The single-candidate conflict scenario -/

/-- Merging the single candidate `{text: X, category: B}` against a store
whose index entry for `X` holds category `A ≠ B` pushes exactly the one
conflict referencing that entry and applies `B` to it in place. -/
theorem merge_single_conflict (store : List Quote) (X A B : String) (i : Nat)
    (hB : B ≠ "") (hAB : A ≠ B)
    (hidx : lastIdx store X = some i) (hget : store[i]? = some ⟨X, A⟩) :
    (mergeServerQuotes [⟨X, some B⟩] store).conflicts =
      [⟨X, i, ⟨X, some B⟩⟩] ∧
    (mergeServerQuotes [⟨X, some B⟩] store).store[i]? = some ⟨X, B⟩ := by
  have hjs1 : jsOr (some B) "" = B := by simp [jsOr, hB]
  have hjs2 : jsOr (some B) "uncategorized" = B := by simp [jsOr, hB]
  have hgetD : store.getD i ⟨"", ""⟩ = ⟨X, A⟩ := by
    rw [List.getD_eq_getElem?_getD, hget]
    rfl
  have hstep : mergeStep store (store, []) ⟨X, some B⟩ =
      (setCat store i B, [⟨X, i, ⟨X, some B⟩⟩]) := by
    simp only [mergeStep, hidx, hgetD, hjs1, hjs2]
    rw [if_neg hAB]
    rfl
  constructor
  · show (mergeGo store [⟨X, some B⟩] (store, [])).2 = _
    rw [mergeGo_cons, mergeGo_nil, hstep]
  · show (mergeGo store [⟨X, some B⟩] (store, [])).1[i]? = _
    rw [mergeGo_cons, mergeGo_nil, hstep]
    dsimp only
    rw [setCat_lookup_self, hget]
    rfl

/-! ### Claim theorems -/

/-- Claim C1, counterexample to the claim as stated: merging the candidate
`{text: "X", category: "B"}` into the store `[{text: "X", category: "A"}]`
returns exactly one conflict, but reading that conflict's `local.category`
after the call gives the applied server value `"B"`, not the original local
category `"A"` — the `local` field is a live reference that was mutated in
place by the merge itself. -/
theorem mergeServerQuotes_conflict_local_counterexample :
    (mergeServerQuotes [⟨"X", some "B"⟩] [⟨"X", "A"⟩]).conflicts.length = 1 ∧
    conflictLocalCat (mergeServerQuotes [⟨"X", some "B"⟩] [⟨"X", "A"⟩]).store
        ((mergeServerQuotes [⟨"X", some "B"⟩] [⟨"X", "A"⟩]).conflicts.getD 0
          ⟨"", 0, ⟨"", none⟩⟩) ≠ "A" := by
  decide

/-- Claim C1 (amended): for every store whose index entry for text `X` holds
category `A`, merging the single candidate `{text: "X", category: "B"}` with
`B ≠ A` (and `B` a real, non-empty category) returns exactly one Conflict
whose `server.category` is `B` and whose `local` field references the entry
for `X`; after the call the store's entry for `X` has category `B`, and the
conflict's live `local` reference therefore also reads `B` — the original
category `A` is not retained in the returned conflict. -/
theorem mergeServerQuotes_conflict_detection (store : List Quote)
    (X A B : String) (i : Nat) (hB : B ≠ "") (hAB : A ≠ B)
    (hidx : lastIdx store X = some i) (hget : store[i]? = some ⟨X, A⟩) :
    (mergeServerQuotes [⟨X, some B⟩] store).conflicts =
      [⟨X, i, ⟨X, some B⟩⟩] ∧
    (mergeServerQuotes [⟨X, some B⟩] store).store[i]? = some ⟨X, B⟩ ∧
    conflictLocalCat (mergeServerQuotes [⟨X, some B⟩] store).store
      ⟨X, i, ⟨X, some B⟩⟩ = B := by
  obtain ⟨h1, h2⟩ := merge_single_conflict store X A B i hB hAB hidx hget
  refine ⟨h1, h2, ?_⟩
  unfold conflictLocalCat
  rw [List.getD_eq_getElem?_getD]
  dsimp only
  rw [h2]
  rfl

/-- Claim C1, witness: the amended claim at the concrete conflict scenario. -/
theorem mergeServerQuotes_conflict_detection_witness :
    (mergeServerQuotes [⟨"X", some "B"⟩] [⟨"X", "A"⟩]).conflicts =
      [⟨"X", 0, ⟨"X", some "B"⟩⟩] ∧
    (mergeServerQuotes [⟨"X", some "B"⟩] [⟨"X", "A"⟩]).store[0]? =
      some ⟨"X", "B"⟩ ∧
    conflictLocalCat (mergeServerQuotes [⟨"X", some "B"⟩] [⟨"X", "A"⟩]).store
      ⟨"X", 0, ⟨"X", some "B"⟩⟩ = "B" :=
  mergeServerQuotes_conflict_detection [⟨"X", "A"⟩] "X" "A" "B" 0
    (by decide) (by decide) (by decide) (by decide)

/-- Claim C2: resolving a conflict produced by the merge with the Keep Local
decision performs no store mutation — the Keep Local handler is the identity
on the store, so the entry keeps the server category `B` applied during the
merge and the prior local category `A` is not restored — and the review flow
removes the item from the Conflict Queue only by clearing the queue when the
panel is closed. -/
theorem keepLocal_no_store_mutation (store : List Quote) (X A B : String)
    (i : Nat) (hB : B ≠ "") (hAB : A ≠ B)
    (hidx : lastIdx store X = some i) (hget : store[i]? = some ⟨X, A⟩) :
    keepLocalResolve (mergeServerQuotes [⟨X, some B⟩] store).store =
      (mergeServerQuotes [⟨X, some B⟩] store).store ∧
    (keepLocalResolve (mergeServerQuotes [⟨X, some B⟩] store).store)[i]? =
      some ⟨X, B⟩ ∧
    closeConflictPanel (mergeServerQuotes [⟨X, some B⟩] store).conflicts = [] := by
  obtain ⟨-, h2⟩ := merge_single_conflict store X A B i hB hAB hidx hget
  exact ⟨rfl, h2, rfl⟩

/-- Claim C2, witness: the Keep Local resolution at the concrete conflict
scenario. -/
theorem keepLocal_no_store_mutation_witness :
    keepLocalResolve (mergeServerQuotes [⟨"X", some "B"⟩] [⟨"X", "A"⟩]).store =
      (mergeServerQuotes [⟨"X", some "B"⟩] [⟨"X", "A"⟩]).store ∧
    (keepLocalResolve
      (mergeServerQuotes [⟨"X", some "B"⟩] [⟨"X", "A"⟩]).store)[0]? =
      some ⟨"X", "B"⟩ ∧
    closeConflictPanel
      (mergeServerQuotes [⟨"X", some "B"⟩] [⟨"X", "A"⟩]).conflicts = [] :=
  keepLocal_no_store_mutation [⟨"X", "A"⟩] "X" "A" "B" 0
    (by decide) (by decide) (by decide) (by decide)

/-- Claim C3, counterexample to the claim as stated: importing the single
candidate `{text: "T"}` (absent category) into the empty store twice appends
the record `{text: "T", category: "uncategorized"}` twice — the skip key uses
`category || ''` while the stored record uses `category || 'uncategorized'`,
so the second pass does not recognise the pair it stored on the first. -/
theorem mergeImport_not_idempotent_counterexample :
    (mergeImport [⟨"T", none⟩] (mergeImport [⟨"T", none⟩] []).1).1 ≠
      (mergeImport [⟨"T", none⟩] []).1 := by
  decide

/-- Claim C3 (amended): merging the same candidate list twice with the import
merge yields the same final store as merging it once, provided every
candidate carries a non-empty category (so its skip key coincides with the
key of the record stored for it); for a candidate with an absent or empty
category the second pass appends a duplicate
`(text, "uncategorized")` record. -/
theorem mergeImport_idempotent (cands : List Candidate) (store : List Quote)
    (hall : ∀ sq ∈ cands, jsOr sq.category "" ≠ "") :
    (mergeImport cands (mergeImport cands store).1).1 =
      (mergeImport cands store).1 := by
  simp only [mergeImport]
  have h1 := impFold_seen_tracks cands hall ⟨store, store.map storeKey, 0⟩ rfl
  have h2 : ∀ sq ∈ cands, candKey sq ∈
      (⟨(cands.foldl impStep ⟨store, store.map storeKey, 0⟩).store,
        (cands.foldl impStep ⟨store, store.map storeKey, 0⟩).store.map storeKey,
        0⟩ : ImportState).seen := by
    intro sq hsq
    show candKey sq ∈
      (cands.foldl impStep ⟨store, store.map storeKey, 0⟩).store.map storeKey
    rw [← h1]
    exact impFold_processed cands _ sq hsq
  rw [impFold_all_seen cands
    ⟨(cands.foldl impStep ⟨store, store.map storeKey, 0⟩).store,
     (cands.foldl impStep ⟨store, store.map storeKey, 0⟩).store.map storeKey,
     0⟩ h2]

/-- Claim C3, witness: the amended idempotence at a concrete candidate list
with a non-empty category. -/
theorem mergeImport_idempotent_witness :
    (mergeImport [⟨"T", some "c"⟩] (mergeImport [⟨"T", some "c"⟩] []).1).1 =
      (mergeImport [⟨"T", some "c"⟩] []).1 :=
  mergeImport_idempotent [⟨"T", some "c"⟩] [] (by decide)

/-- Claim C4: for every valid store state — every entry has a (string) text
and a non-empty category — saving and then loading into a fresh store yields
the same ordered sequence of `(text, category)` pairs. -/
theorem saveLoad_roundtrip (store : List Quote)
    (h : ∀ q ∈ store, q.category ≠ "") :
    loadQuotesFromLocalStorage (some (saveQuotesToLocalStorage store)) [] =
      store := by
  induction store with
  | nil => rfl
  | cons q rest ih =>
    have hq : q.category ≠ "" := h q (List.mem_cons_self q rest)
    have hrest := ih (fun x hx => h x (List.mem_cons_of_mem q hx))
    show (⟨q.text, jsOr (some q.category) "uncategorized"⟩ : Quote) ::
        loadQuotesFromLocalStorage (some (saveQuotesToLocalStorage rest)) [] =
      q :: rest
    rw [hrest]
    congr 1
    simp [jsOr, hq]

/-- Claim C4, witness: the round-trip at a concrete one-entry store. -/
theorem saveLoad_roundtrip_witness :
    loadQuotesFromLocalStorage
      (some (saveQuotesToLocalStorage [⟨"a", "b"⟩])) [] = [⟨"a", "b"⟩] :=
  saveLoad_roundtrip [⟨"a", "b"⟩] (by decide)

/-- Claim C5, counterexample to the claim as stated: with the store
`[{text: "t", category: ""}]` and filter `"uncategorized"`, the empty raw
category is pooled under its effective category `"uncategorized"`, so the call
returns a quote whose raw `category` field is `""`, not equal to the filter. -/
theorem randomFrom_category_counterexample :
    showRandomQuoteByCategory "uncategorized" 0 [⟨"t", ""⟩] =
      some ⟨"t", ""⟩ ∧
    ("" : String) ≠ "uncategorized" := by
  decide

/-- Claim C5 (amended): for a filter distinct from `"all"`, if no quote's
effective category (`category || 'uncategorized'`) matches the filter the
call returns the defined empty result (`null`) and never throws; otherwise,
for every random draw, the returned quote is an element of the store whose
effective category equals the filter (its raw `category` field can differ
only when it is empty and the filter is `"uncategorized"`). -/
theorem randomFrom_filter_correct (category : String) (r : Nat)
    (store : List Quote) (hcat : category ≠ "all") :
    ((∀ q ∈ store, strOr q.category "uncategorized" ≠ category) →
      showRandomQuoteByCategory category r store = none) ∧
    ∀ q, showRandomQuoteByCategory category r store = some q →
      strOr q.category "uncategorized" = category ∧ q ∈ store := by
  constructor
  · intro hall
    have hfil : store.filter
        (fun q => strOr q.category "uncategorized" == category) = [] :=
      List.filter_eq_nil_iff.mpr (fun q hq => by simp [hall q hq])
    simp only [showRandomQuoteByCategory, if_neg hcat, hfil]
  · intro q hq
    simp only [showRandomQuoteByCategory, if_neg hcat] at hq
    cases hpool : store.filter
        (fun q => strOr q.category "uncategorized" == category) with
    | nil =>
      rw [hpool] at hq
      cases hq
    | cons x xs =>
      rw [hpool] at hq
      have hqm : q ∈ x :: xs := by
        cases hq
        exact List.get_mem _ _ _
      rw [← hpool] at hqm
      have hmf := List.mem_filter.mp hqm
      refine ⟨?_, hmf.1⟩
      simpa using hmf.2

/-- Claim C5, witness: the empty-pool case at a concrete store with no match
for the filter. -/
theorem randomFrom_filter_correct_witness :
    showRandomQuoteByCategory "x" 0 [⟨"t", "y"⟩] = none :=
  (randomFrom_filter_correct "x" 0 [⟨"t", "y"⟩] (by decide)).1 (by decide)

/-- Claim C6, counterexample to the claim as stated: `addQuoteDirect` checks
falsiness of the untrimmed argument, so the whitespace-only text `" "` is not
rejected — the call succeeds and appends a record whose trimmed text is empty,
instead of failing with a validation error and leaving the store unchanged. -/
theorem addQuoteDirect_whitespace_counterexample :
    addQuoteDirect " " (some "cat") [] = Except.ok [⟨"", "cat"⟩] ∧
    Except.ok [(⟨"", "cat"⟩ : Quote)] ≠
      (Except.error "text required" : Except String (List Quote)) := by
  refine ⟨rfl, ?_⟩
  intro hcon
  cases hcon

/-- Claim C6 (amended): appending with the empty-string text fails with the
validation error and leaves the store unchanged, and the form-based `addQuote`
path rejects every text that is empty after trimming (returning the null
result with the store unchanged); but `addQuoteDirect` does not reject a
whitespace-only non-empty text — it appends a record with empty trimmed
text. -/
theorem append_validation (store : List Quote) (cat : Option String)
    (t c : String) (ht : jsTrim t = "") :
    addQuoteDirect "" cat store = Except.error "text required" ∧
    addQuote t c store = (none, store) ∧
    (t ≠ "" → addQuoteDirect t cat store =
      Except.ok (store ++ [⟨"", jsOr cat "uncategorized"⟩])) := by
  refine ⟨rfl, ?_, ?_⟩
  · simp only [addQuote]
    rw [if_pos ht]
  · intro hne
    simp only [addQuoteDirect]
    rw [if_neg hne, ht]

/-- Claim C6, witness: the validation behaviour at concrete inputs — empty
string rejected, whitespace-only rejected by the form path, whitespace-only
accepted by `addQuoteDirect`. -/
theorem append_validation_witness :
    addQuoteDirect "" (some "x") [] = Except.error "text required" ∧
    addQuote " " "c" [] = (none, []) ∧
    addQuoteDirect " " (some "x") [] = Except.ok [⟨"", "x"⟩] := by
  obtain ⟨h1, h2, h3⟩ := append_validation [] (some "x") " " "c" (by decide)
  exact ⟨h1, h2, h3 (by decide)⟩

/-- Claim C7: when the remote fetch fails — a network error or a non-success
status, both surfacing as an `Except.error` from `fetchServerQuotes` —
`performSync` leaves the Quote Store unchanged, makes no Conflict Queue
mutation, and surfaces the failure as the `'Sync failed: ...'` notification
instead of propagating the error. -/
theorem performSync_fetch_failure (resp : Except String Response)
    (store : List Quote) (pending : List Conflict) (e : String)
    (h : fetchServerQuotes resp = Except.error e) :
    performSync resp store pending = ⟨store, pending, "Sync failed: " ++ e⟩ := by
  simp only [performSync, h]

/-- Claim C7, witness: a non-success HTTP response leaves store and queue
untouched and produces the failure notification. -/
theorem performSync_fetch_failure_witness :
    performSync (Except.ok ⟨false, []⟩) [] [] =
      ⟨[], [], "Sync failed: failed to fetch server data"⟩ :=
  performSync_fetch_failure (Except.ok ⟨false, []⟩) [] []
    "failed to fetch server data" rfl

/-- Claim C8, counterexample to the claim as stated: merging the single new
candidate `{text: "Y", category: "C"}` into the empty store appends a record
— so something was appended — yet `populateCategories` (the Category Index
recomputation) is not run, because the source guards it with
`if (conflicts.length)` and this merge produces no conflicts. -/
theorem mergeServerQuotes_repopulate_counterexample :
    (mergeServerQuotes [⟨"Y", some "C"⟩] []).store = [⟨"Y", "C"⟩] ∧
    (mergeServerQuotes [⟨"Y", some "C"⟩] []).repopulated = false := by
  decide

/-- Claim C8 (amended): whenever the merge changed the store (an append or an
in-place category update), the store is persisted — the save runs for every
non-empty candidate list — but the Category Index is recomputed only when at
least one conflict was detected; a pure append never triggers the
recomputation. -/
theorem mergeServerQuotes_persistence (sqs : List Candidate)
    (store : List Quote)
    (h : (mergeServerQuotes sqs store).store ≠ store) :
    (mergeServerQuotes sqs store).saved = true ∧
    (mergeServerQuotes sqs store).repopulated =
      !(mergeServerQuotes sqs store).conflicts.isEmpty := by
  refine ⟨?_, rfl⟩
  cases sqs with
  | nil => exact absurd rfl h
  | cons a l => rfl

/-- Claim C8, witness: the persistence flags at a concrete store-changing
merge. -/
theorem mergeServerQuotes_persistence_witness :
    (mergeServerQuotes [⟨"Y", some "C"⟩] []).saved = true ∧
    (mergeServerQuotes [⟨"Y", some "C"⟩] []).repopulated =
      !(mergeServerQuotes [⟨"Y", some "C"⟩] []).conflicts.isEmpty :=
  mergeServerQuotes_persistence [⟨"Y", some "C"⟩] [] (by decide)

/-- Claim C9: when no store entry has text `Y` and the candidate list contains
a candidate with text `Y` and category `C`, the merge appends the record
`{text: Y, category: C || 'uncategorized'}` and no conflict with text `Y` is
returned. -/
theorem mergeServerQuotes_new_item (store : List Quote) (sqs : List Candidate)
    (y : String) (cand : Candidate) (hy : ∀ q ∈ store, q.text ≠ y)
    (hc : cand ∈ sqs) (ht : cand.text = y) :
    (⟨y, jsOr cand.category "uncategorized"⟩ : Quote) ∈
      (mergeServerQuotes sqs store).store ∧
    ∀ conf ∈ (mergeServerQuotes sqs store).conflicts, conf.text ≠ y := by
  have hnone : lastIdx store y = none := lastIdx_eq_none store y hy
  constructor
  · exact mergeGo_appends store y hnone cand ht sqs (store, []) (Nat.le_refl _) hc
  · intro conf hconf hcy
    rcases mergeGo_conflicts store sqs (store, []) conf hconf with
      h1 | ⟨sq, hsq, htext, hsome⟩
    · cases h1
    · rw [hcy] at htext
      rw [← htext] at hsome
      rw [hnone] at hsome
      simp at hsome

/-- Claim C9, witness: the new-item addition at a concrete empty store. -/
theorem mergeServerQuotes_new_item_witness :
    (⟨"Y", "C"⟩ : Quote) ∈ (mergeServerQuotes [⟨"Y", some "C"⟩] []).store ∧
    ∀ conf ∈ (mergeServerQuotes [⟨"Y", some "C"⟩] []).conflicts,
      conf.text ≠ "Y" :=
  mergeServerQuotes_new_item [] [⟨"Y", some "C"⟩] "Y" ⟨"Y", some "C"⟩
    (fun q hq => absurd hq (List.not_mem_nil q))
    (List.mem_singleton.mpr rfl) rfl

/-- Claim C10: the merge never removes or reorders existing entries — the
store length never decreases, the sequence of texts of the result extends the
original sequence (in-place category updates keep every text where it was),
every text present before the merge is still present after it, and everything
past the original length is an appended candidate record. -/
theorem mergeServerQuotes_preserves_store (store : List Quote)
    (sqs : List Candidate) :
    store.length ≤ (mergeServerQuotes sqs store).store.length ∧
    (∃ rest, (mergeServerQuotes sqs store).store.map Quote.text =
      store.map Quote.text ++ rest) ∧
    (∀ q ∈ store, ∃ p ∈ (mergeServerQuotes sqs store).store,
      p.text = q.text) ∧
    ∀ q ∈ (mergeServerQuotes sqs store).store.drop store.length,
      ∃ sq ∈ sqs, q = ⟨sq.text, jsOr sq.category "uncategorized"⟩ := by
  have hlen : store.length ≤ (mergeGo store sqs (store, [])).1.length :=
    mergeGo_length store sqs (store, [])
  obtain ⟨rest, hrest⟩ := mergeGo_text store sqs (store, [])
  refine ⟨hlen, ⟨rest, hrest⟩, ?_, ?_⟩
  · intro q hq
    have hmem : q.text ∈ (mergeGo store sqs (store, [])).1.map Quote.text := by
      rw [hrest]
      exact List.mem_append_left _ (List.mem_map_of_mem Quote.text hq)
    obtain ⟨p, hp, hpt⟩ := List.mem_map.mp hmem
    exact ⟨p, hp, hpt⟩
  · intro q hq
    rcases mergeGo_drop store sqs (store, []) q (Nat.le_refl _) hq with h1 | h1
    · rw [List.drop_length] at h1
      cases h1
    · exact h1

/-- Claim C10, witness: the preservation properties applied at a concrete
store and candidate list — the pre-existing text is still present after the
merge. -/
theorem mergeServerQuotes_preserves_store_witness :
    ∃ p ∈ (mergeServerQuotes [⟨"n", some "c"⟩] [⟨"a", "b"⟩]).store,
      p.text = "a" :=
  (mergeServerQuotes_preserves_store [⟨"a", "b"⟩] [⟨"n", some "c"⟩]).2.2.1
    ⟨"a", "b"⟩ (List.mem_singleton.mpr rfl)
